import Mathlib

/-!
Verification of the `docker-volume-sync` synchronization engine.

Shallow embedding of the Go sources `internal/syncer/syncer.go`,
`internal/syncer/local.go`, `internal/syncer/s3.go` and the concurrency
default of `internal/config/config.go`.

Go strings are modelled as Lean `String`s, with the byte-level operations
(`strings.HasPrefix`, `strings.TrimPrefix`) carried out on the underlying
character list; `int64` sizes and `time.Time` modification instants are
modelled as `Int` (only `!=` and `After`, i.e. `<`, are used by the code).
Maps (`map[string]ObjectInfo`) are association lists whose insertion
replaces any previous binding, mirroring Go map assignment.
-/

/-- Go standard library `strings.HasPrefix s pre`. -/
def hasPfx (s pre : String) : Bool :=
  pre.data.isPrefixOf s.data

/-- Go standard library `strings.TrimPrefix s pre`: removes `pre`
from the start of `s` if present, otherwise returns `s` unchanged. -/
def trimPfx (s pre : String) : String :=
  if hasPfx s pre then String.mk (s.data.drop pre.data.length) else s

/-- Record `ObjectInfo` from `internal/syncer/s3.go`: key, size and modification
time of one enumerated file or object. -/
structure ObjectInfo where
  key : String
  size : Int
  modTime : Int
deriving DecidableEq, Repr

/-- A snapshot: the `map[string]ObjectInfo` built by either enumerator,
keyed by relative path. -/
abbrev Snapshot := List (String × ObjectInfo)

/-- Map lookup `m[relPath]` on a snapshot. -/
def Snapshot.find? : Snapshot → String → Option ObjectInfo
  | [], _ => none
  | (q, v) :: rest, p => if q = p then some v else Snapshot.find? rest p

/-- Remove every binding for key `p` (helper for map assignment). -/
def Snapshot.eraseKey : Snapshot → String → Snapshot
  | [], _ => []
  | e :: rest, p =>
    if e.1 = p then Snapshot.eraseKey rest p else e :: Snapshot.eraseKey rest p

/-- Go map assignment `m[p] = v`: any previous binding for `p` is replaced. -/
def Snapshot.insert (s : Snapshot) (p : String) (v : ObjectInfo) : Snapshot :=
  (p, v) :: Snapshot.eraseKey s p

/-- The copy decision of `executeSync` (syncer.go lines 248-258): copy when
the path is absent from the destination, or sizes differ, or sizes agree and
the source modification time is strictly after the destination's. -/
def shouldCopy (srcInfo : ObjectInfo) (dst? : Option ObjectInfo) : Bool :=
  match dst? with
  | none => true
  | some dstInfo =>
    if srcInfo.size ≠ dstInfo.size then true
    else if dstInfo.modTime < srcInfo.modTime then true
    else false

/-- The set of paths submitted as copy jobs by `executeSync`: every source
path whose `shouldCopy` test succeeds. -/
def planCopy (srcObjs dstObjs : Snapshot) : List String :=
  (srcObjs.filter fun e => shouldCopy e.2 (Snapshot.find? dstObjs e.1)).map Prod.fst

/-- The set of paths submitted as delete jobs by `executeSync` (lines
270-285): enabled only by `deleteDestination`, and then every destination
path absent from the source. -/
def planDelete (srcObjs dstObjs : Snapshot) (deleteDestination : Bool) : List String :=
  if deleteDestination then
    (dstObjs.filter fun e => (Snapshot.find? srcObjs e.1).isNone).map Prod.fst
  else []

/-- A filter predicate as supplied through `WithFilter`; `none` models the
Go `nil` function value. A path passes when no filter is set or the filter
returns true (both enumerators test `filter != nil && !filter(relPath)`). -/
def filterPass (fil : Option (String → Bool)) (relPath : String) : Bool :=
  match fil with
  | none => true
  | some f => f relPath

/-- Size and modification time returned by `d.Info()` during the local walk. -/
structure FileMeta where
  size : Int
  modTime : Int
deriving DecidableEq, Repr

/-- One invocation of the `filepath.WalkDir` callback in `WalkLocal`:
either the walk reports an error for the entry, or the entry is a
directory, or it is a file (whose `d.Info()` may itself fail). The
relative path is carried directly; `filepath.Rel` succeeds for every path
yielded by a walk rooted at `root`. -/
inductive WalkEvent
  | errEvent (e : String)
  | dirEvent (relPath : String)
  | fileEvent (relPath : String) (meta : Except String FileMeta)
deriving Repr

/-- The body of `WalkLocal` (local.go): fold the walk events into a
snapshot, aborting on the first callback error or `d.Info()` failure.
Directories are skipped and the filter is applied before reading file
info, exactly as in the source. -/
def walkLocalGo (fil : Option (String → Bool)) :
    List WalkEvent → Snapshot → Except String Snapshot
  | [], acc => Except.ok acc
  | WalkEvent.errEvent e :: _, _ =>
      Except.error ("failed to walk local directory: " ++ e)
  | WalkEvent.dirEvent _ :: rest, acc => walkLocalGo fil rest acc
  | WalkEvent.fileEvent relPath meta :: rest, acc =>
      if filterPass fil relPath then
        match meta with
        | Except.error e =>
            Except.error ("failed to walk local directory: failed to get file info: " ++ e)
        | Except.ok m =>
            walkLocalGo fil rest (acc.insert relPath ⟨relPath, m.size, m.modTime⟩)
      else walkLocalGo fil rest acc

/-- Function `WalkLocal root filter` over an abstract stream of walk events. -/
def walkLocal (events : List WalkEvent) (fil : Option (String → Bool)) :
    Except String Snapshot :=
  walkLocalGo fil events []

/-- One object as reported by a `ListObjectsV2` page. -/
structure RawObject where
  key : String
  size : Int
  modTime : Int
deriving DecidableEq, Repr

/-- The relative-path computation and skip logic of `ListS3Objects`
(s3.go lines 38-50): strip the configured key namespace, drop at most one
leading slash, skip keys lacking the namespace and keys whose computed
relative path is empty. Returns `none` when the object is skipped. -/
def s3RelPath (pfx key : String) : Option String :=
  if pfx = "" then
    if key = "" then none else some key
  else if hasPfx key pfx then
    let r := trimPfx (trimPfx key pfx) "/"
    if r = "" then none else some r
  else none

/-- Processing of a single listed object by `ListS3Objects`: compute the
relative path, apply the filter, and insert into the snapshot. -/
def processObj (fil : Option (String → Bool)) (pfx : String)
    (acc : Snapshot) (obj : RawObject) : Snapshot :=
  match s3RelPath pfx obj.key with
  | none => acc
  | some relPath =>
    if filterPass fil relPath then
      acc.insert relPath ⟨obj.key, obj.size, obj.modTime⟩
    else acc

/-- The pagination loop of `ListS3Objects`: each page either fails
(`paginator.NextPage` error) or yields a list of objects. -/
def listS3Go (fil : Option (String → Bool)) (pfx : String) :
    List (Except String (List RawObject)) → Snapshot → Except String Snapshot
  | [], acc => Except.ok acc
  | Except.error e :: _, _ => Except.error ("failed to list objects: " ++ e)
  | Except.ok objs :: rest, acc =>
      listS3Go fil pfx rest (objs.foldl (processObj fil pfx) acc)

/-- Function `ListS3Objects ctx client bucket pfx filter` over an abstract page
stream. -/
def listS3Objects (fil : Option (String → Bool)) (pfx : String)
    (pages : List (Except String (List RawObject))) : Except String Snapshot :=
  listS3Go fil pfx pages []

/-- Function `parseS3URI` from syncer.go: strip `s3://`, split once on `/` into
bucket and key namespace. -/
def parseS3URI (uri : String) : String × String :=
  let t := (trimPfx uri "s3://").data
  let bucket := String.mk (t.takeWhile fun c => c ≠ '/')
  match t.dropWhile fun c => c ≠ '/' with
  | [] => (bucket, "")
  | _ :: r => (bucket, String.mk r)

/-- Cancellation causes a Go `context` can report through `ctx.Err()`: either a plain cancellation or an expired deadline. -/
inductive CtxErr
  | canceled
  | deadlineExceeded
deriving DecidableEq, Repr

/-- A job as handed to the worker pool of `executeSync`, together with the
outcome its executor (`copyFunc` or `deleteFunc`) produces when the job
runs: `none` for success, `some e` for an error. -/
structure MJob where
  path : String
  res : Option String
deriving DecidableEq, Repr

/-- Status of one worker goroutine of `executeSync`. -/
inductive WStatus
  | idle
  | busy (j : MJob)
  | done
deriving DecidableEq, Repr

/-- Capacity of the buffered `jobs` channel (`make(chan job, 1000)`). -/
def jobsCap : Nat := 1000

/-- Capacity of the buffered `errChan` channel (`make(chan error, 2000)`). -/
def errsCap : Nat := 2000

/-- State of one run of `executeSync`'s producer/worker machinery:
the producer's remaining submissions, the buffered `jobs` channel, the
derived context's status, the buffered `errChan` contents, and the status
of each of the `concurrency` workers. `failLog` is a ghost log of every
executor error in the order it occurred (`errChan` holds its first
`errsCap` entries) and `dispatched` is a ghost log of every job a worker
dequeued. -/
structure PoolState where
  toSubmit : List MJob
  producerDone : Bool
  closed : Bool
  queue : List MJob
  ctxErr : Option CtxErr
  errs : List String
  failLog : List String
  dispatched : List MJob
  workers : List WStatus
deriving Repr

/-- Whether `ctx.Done()` is closed, i.e. `ctx.Err()` is non-nil. -/
def ctxDone (s : PoolState) : Bool := s.ctxErr.isSome

/-- Scheduler choices for one run of `executeSync`: the producer submits
the next job or observes the context and stops, a worker dequeues a job,
finishes its current job, or observes channel closure or cancellation, or
the caller's context is cancelled from outside. -/
inductive PoolAction
  | submit
  | producerStop
  | dequeue (i : Nat)
  | finish (i : Nat)
  | wObserveClose (i : Nat)
  | wObserveCancel (i : Nat)
  | extCancel (e : CtxErr)
deriving DecidableEq, Repr

/-- One transition of the `executeSync` machinery; `none` when the chosen
action is not enabled in the given state.

Faithfulness notes, against syncer.go lines 198-300:
* `submit` requires a free slot in the buffered `jobs` channel and a
  producer still in its loop; a send may race ahead of an already-fired
  cancellation because Go's `select` picks among ready cases
  nondeterministically, so the transition does not require a live context.
* `producerStop` models both the `ctx.Err() != nil` loop breaks and the
  normal end of the loops, followed immediately by `close(jobs)`.
* `dequeue` hands a buffered job to an idle worker even after
  cancellation (a buffered channel still delivers after `close`/cancel;
  the worker's `select` may pick the jobs case).
* `finish` runs the executor: on error the worker performs the
  non-blocking send into `errChan` (dropped when full), calls `cancel()`
  (a no-op if the context is already done) and returns.
* `wObserveClose` is the `!ok` branch after `jobs` is closed and drained;
  `wObserveCancel` is the `<-ctx.Done()` branch.
* `extCancel` is a cancellation of the caller's context; the derived
  context's error is set by whichever cancellation comes first. -/
def stepPool (s : PoolState) : PoolAction → Option PoolState
  | PoolAction.submit =>
    match s.toSubmit with
    | [] => none
    | j :: rest =>
      if s.producerDone then none
      else if s.queue.length < jobsCap then
        some { s with toSubmit := rest, queue := s.queue ++ [j] }
      else none
  | PoolAction.producerStop =>
    if s.producerDone then none
    else if s.toSubmit.isEmpty || ctxDone s then
      some { s with producerDone := true, closed := true }
    else none
  | PoolAction.dequeue i =>
    match s.workers[i]? with
    | some WStatus.idle =>
      match s.queue with
      | [] => none
      | j :: qrest =>
        some { s with queue := qrest,
                      workers := s.workers.set i (WStatus.busy j),
                      dispatched := s.dispatched ++ [j] }
    | _ => none
  | PoolAction.finish i =>
    match s.workers[i]? with
    | some (WStatus.busy j) =>
      match j.res with
      | none => some { s with workers := s.workers.set i WStatus.idle }
      | some e =>
        some { s with
          workers := s.workers.set i WStatus.done,
          failLog := s.failLog ++ [e],
          errs := if s.errs.length < errsCap then s.errs ++ [e] else s.errs,
          ctxErr := if ctxDone s then s.ctxErr else some CtxErr.canceled }
    | _ => none
  | PoolAction.wObserveClose i =>
    match s.workers[i]? with
    | some WStatus.idle =>
      if s.closed && s.queue.isEmpty then
        some { s with workers := s.workers.set i WStatus.done }
      else none
    | _ => none
  | PoolAction.wObserveCancel i =>
    match s.workers[i]? with
    | some WStatus.idle =>
      if ctxDone s then some { s with workers := s.workers.set i WStatus.done }
      else none
    | _ => none
  | PoolAction.extCancel e =>
    if ctxDone s then none else some { s with ctxErr := some e }

/-- Apply an action when enabled, otherwise leave the state unchanged. -/
def applyAct (s : PoolState) (a : PoolAction) : PoolState :=
  (stepPool s a).getD s

/-- Run the machinery under a schedule (a list of scheduler choices). -/
def runPool (s : PoolState) : List PoolAction → PoolState
  | [] => s
  | a :: rest => runPool (applyAct s a) rest

/-- Initial state of `executeSync`: the full plan awaits submission, the
channels are empty, the derived context is live, and `concurrency`
workers have been started idle. -/
def initPool (jobs : List MJob) (concurrency : Nat) : PoolState :=
  { toSubmit := jobs
    producerDone := false
    closed := false
    queue := []
    ctxErr := none
    errs := []
    failLog := []
    dispatched := []
    workers := List.replicate concurrency WStatus.idle }

/-- The run has ended: producer finished, `wg.Wait()` returned. -/
def poolTerminal (s : PoolState) : Prop :=
  s.producerDone = true ∧ ∀ w ∈ s.workers, w = WStatus.done

instance (s : PoolState) : Decidable (poolTerminal s) := by
  unfold poolTerminal; infer_instance

/-- The value `executeSync` returns (syncer.go lines 291-299): a non-nil
`ctx.Err()` other than `context.Canceled` is returned as is; otherwise the
first buffered error from `errChan`, if any; otherwise nil (`none`). -/
def execResult (s : PoolState) : Option String :=
  match s.ctxErr with
  | some CtxErr.deadlineExceeded => some "context deadline exceeded"
  | _ => s.errs.head?

/-- Number of executor invocations currently in flight. -/
def inFlight (s : PoolState) : Nat :=
  s.workers.countP fun w => match w with | WStatus.busy _ => true | _ => false

/-- The jobs `executeSync` submits for a plan: all copy jobs first, then,
if enabled, all delete jobs, each paired with its executor's outcome. -/
def mkJobs (srcObjs dstObjs : Snapshot) (deleteDestination : Bool)
    (copyRes delRes : String → Option String) : List MJob :=
  (planCopy srcObjs dstObjs).map (fun p => ⟨p, copyRes p⟩)
    ++ (planDelete srcObjs dstObjs deleteDestination).map (fun p => ⟨p, delRes p⟩)

/-- Concurrency resolution in `config.Load`: default 16, a parsed
`SYNC_CONCURRENCY` value is accepted only when strictly positive
(`err == nil && c > 0`); `none` stands for an unset or unparsable
variable. -/
def resolveConcurrency (parsed : Option Int) : Int :=
  match parsed with
  | some c => if c > 0 then c else 16
  | none => 16

/-- Observable trace of one `Sync` call: how many snapshot enumerations
were attempted and which jobs workers dequeued. -/
structure SyncTrace where
  enumAttempts : Nat
  dispatched : List MJob
deriving Repr

/-- Function `syncS3ToLocal` (syncer.go lines 90-143): list the bucket, walk the
local tree, then hand the plan to `executeSync`; either enumeration error
is returned at once, before any worker runs. `pages` and `events` stand
for the two storage states, `copyRes`/`delRes` for the outcomes of the
download and local-remove executors, and `acts` for the scheduling of the
worker pool. -/
def syncS3ToLocalRun (pfx : String) (pages : List (Except String (List RawObject)))
    (events : List WalkEvent) (fil : Option (String → Bool)) (del : Bool)
    (copyRes delRes : String → Option String) (concurrency : Nat)
    (acts : List PoolAction) : Except String Unit × SyncTrace :=
  match listS3Objects fil pfx pages with
  | Except.error e => (Except.error e, ⟨1, []⟩)
  | Except.ok srcObjs =>
    match walkLocal events fil with
    | Except.error e => (Except.error e, ⟨2, []⟩)
    | Except.ok dstObjs =>
      let f := runPool (initPool (mkJobs srcObjs dstObjs del copyRes delRes) concurrency) acts
      (match execResult f with
       | none => Except.ok ()
       | some e => Except.error e, ⟨2, f.dispatched⟩)

/-- Function `syncLocalToS3` (syncer.go lines 145-196): walk the local tree, list
the bucket, then hand the plan to `executeSync`; either enumeration error
is returned at once, before any worker runs. -/
def syncLocalToS3Run (pfx : String) (pages : List (Except String (List RawObject)))
    (events : List WalkEvent) (fil : Option (String → Bool)) (del : Bool)
    (copyRes delRes : String → Option String) (concurrency : Nat)
    (acts : List PoolAction) : Except String Unit × SyncTrace :=
  match walkLocal events fil with
  | Except.error e => (Except.error e, ⟨1, []⟩)
  | Except.ok srcObjs =>
    match listS3Objects fil pfx pages with
    | Except.error e => (Except.error e, ⟨2, []⟩)
    | Except.ok dstObjs =>
      let f := runPool (initPool (mkJobs srcObjs dstObjs del copyRes delRes) concurrency) acts
      (match execResult f with
       | none => Except.ok ()
       | some e => Except.error e, ⟨2, f.dispatched⟩)

/-- Function `Sync` (syncer.go lines 75-88): classify both endpoints by the
`s3://` scheme test and dispatch, or fail with the unsupported-mode error
before attempting any enumeration. -/
def syncRun (src dst : String) (pages : List (Except String (List RawObject)))
    (events : List WalkEvent) (fil : Option (String → Bool)) (del : Bool)
    (copyRes delRes : String → Option String) (concurrency : Nat)
    (acts : List PoolAction) : Except String Unit × SyncTrace :=
  if hasPfx src "s3://" && !hasPfx dst "s3://" then
    syncS3ToLocalRun (parseS3URI src).2 pages events fil del copyRes delRes concurrency acts
  else if !hasPfx src "s3://" && hasPfx dst "s3://" then
    syncLocalToS3Run (parseS3URI dst).2 pages events fil del copyRes delRes concurrency acts
  else
    (Except.error ("unsupported sync mode: " ++ src ++ " -> " ++ dst
      ++ " (only S3<->Local supported)"), ⟨0, []⟩)

/-- A walk-event stream contains an unreadable or malformed entry that the
walk will reach: a callback error, or a file whose path passes the filter
but whose `d.Info()` call fails. -/
def badWalkEvents (fil : Option (String → Bool)) (events : List WalkEvent) : Prop :=
  (∃ e, WalkEvent.errEvent e ∈ events)
    ∨ ∃ p m, WalkEvent.fileEvent p (Except.error m) ∈ events ∧ filterPass fil p = true

/-- A page stream contains a failing listing page. -/
def badPages (pages : List (Except String (List RawObject))) : Prop :=
  ∃ e, Except.error e ∈ pages

/-- Spec-side description of the relative-key computation (for comparison
with `s3RelPath`): after the key namespace itself is removed, at most one
leading separator is dropped. -/
def stripLeadingSepSpec (l : List Char) : List Char :=
  if l.head? = some '/' then l.tail else l

theorem find?_mem {s : Snapshot} {p : String} {v : ObjectInfo}
    (h : Snapshot.find? s p = some v) : (p, v) ∈ s := by
  induction s with
  | nil => simp [Snapshot.find?] at h
  | cons e rest ih =>
    obtain ⟨q, w⟩ := e
    by_cases hq : q = p
    · subst hq
      simp [Snapshot.find?] at h
      subst h
      exact List.mem_cons_self _ _
    · rw [Snapshot.find?, if_neg hq] at h
      exact List.mem_cons_of_mem _ (ih h)

theorem find?_of_mem_nodup {s : Snapshot} (hnd : (s.map Prod.fst).Nodup)
    {p : String} {v : ObjectInfo} (h : (p, v) ∈ s) :
    Snapshot.find? s p = some v := by
  induction s with
  | nil => simp at h
  | cons e rest ih =>
    obtain ⟨q, w⟩ := e
    rw [List.map_cons, List.nodup_cons] at hnd
    rcases List.mem_cons.mp h with heq | hmem
    · injection heq with hq hv
      rw [Snapshot.find?, if_pos hq.symm, hv]
    · by_cases hq : q = p
      · exfalso
        exact hnd.1 (hq ▸ List.mem_map.mpr ⟨(p, v), hmem, rfl⟩)
      · rw [Snapshot.find?, if_neg hq]
        exact ih hnd.2 hmem

theorem find?_eq_none {s : Snapshot} {p : String} :
    Snapshot.find? s p = none ↔ p ∉ s.map Prod.fst := by
  induction s with
  | nil => simp [Snapshot.find?]
  | cons e rest ih =>
    obtain ⟨q, w⟩ := e
    by_cases hq : q = p
    · subst hq
      simp [Snapshot.find?]
    · rw [Snapshot.find?, if_neg hq]
      simp only [List.map_cons, List.mem_cons]
      rw [ih]
      constructor
      · intro hn hc
        rcases hc with hc | hc
        · exact hq hc.symm
        · exact hn hc
      · intro hn hc
        exact hn (Or.inr hc)

theorem mem_planCopy {src dst : Snapshot} {p : String} :
    p ∈ planCopy src dst
      ↔ ∃ v, (p, v) ∈ src ∧ shouldCopy v (Snapshot.find? dst p) = true := by
  constructor
  · intro h
    rcases List.mem_map.mp h with ⟨e, he, hfst⟩
    rcases List.mem_filter.mp he with ⟨hsrc, hpred⟩
    refine ⟨e.2, ?_, ?_⟩
    · rw [← hfst]; exact hsrc
    · rw [← hfst]; exact hpred
  · rintro ⟨v, hv, hc⟩
    exact List.mem_map.mpr ⟨(p, v), List.mem_filter.mpr ⟨hv, hc⟩, rfl⟩

theorem shouldCopy_some_iff (si di : ObjectInfo) :
    shouldCopy si (some di) = true
      ↔ si.size ≠ di.size ∨ (si.size = di.size ∧ di.modTime < si.modTime) := by
  by_cases hs : si.size = di.size
  · by_cases hm : di.modTime < si.modTime <;> simp [shouldCopy, hs, hm]
  · simp [shouldCopy, hs]

theorem mem_planDelete {src dst : Snapshot} {p : String} :
    p ∈ planDelete src dst true
      ↔ p ∈ dst.map Prod.fst ∧ Snapshot.find? src p = none := by
  constructor
  · intro h
    have h' : p ∈ (dst.filter fun e => (Snapshot.find? src e.1).isNone).map Prod.fst := h
    rcases List.mem_map.mp h' with ⟨e, he, hfst⟩
    rcases List.mem_filter.mp he with ⟨hdst, hnone⟩
    constructor
    · exact List.mem_map.mpr ⟨e, hdst, hfst⟩
    · rw [← hfst]
      exact Option.isNone_iff_eq_none.mp hnone
  · rintro ⟨hmem, hnone⟩
    rcases List.mem_map.mp hmem with ⟨e, he, hfst⟩
    show p ∈ (dst.filter fun e => (Snapshot.find? src e.1).isNone).map Prod.fst
    refine List.mem_map.mpr ⟨e, List.mem_filter.mpr ⟨he, ?_⟩, hfst⟩
    rw [hfst, hnone]
    rfl

/-- C1: a source path is placed in the copy set exactly when it is absent
from the destination, or present with a different size, or present with
equal size and a source modification time strictly after the
destination's; in particular a size mismatch forces a copy regardless of
the timestamps. -/
theorem copy_decision_rule (src dst : Snapshot) (p : String) (si : ObjectInfo)
    (hnd : (src.map Prod.fst).Nodup) (hp : Snapshot.find? src p = some si) :
    (p ∈ planCopy src dst ↔
      Snapshot.find? dst p = none
        ∨ ∃ di, Snapshot.find? dst p = some di
            ∧ (si.size ≠ di.size ∨ (si.size = di.size ∧ di.modTime < si.modTime)))
    ∧ (∀ di, Snapshot.find? dst p = some di → si.size ≠ di.size →
        p ∈ planCopy src dst) := by
  have hmem : (p, si) ∈ src := find?_mem hp
  constructor
  · rw [mem_planCopy]
    constructor
    · rintro ⟨v, hv, hc⟩
      have hvsi : v = si := by
        have h2 := find?_of_mem_nodup hnd hv
        rw [hp] at h2
        exact (Option.some_inj.mp h2).symm
      subst hvsi
      cases hd : Snapshot.find? dst p with
      | none => exact Or.inl rfl
      | some di =>
        rw [hd] at hc
        exact Or.inr ⟨di, rfl, (shouldCopy_some_iff v di).mp hc⟩
    · intro h
      refine ⟨si, hmem, ?_⟩
      rcases h with hnone | ⟨di, hdi, hcond⟩
      · rw [hnone]; rfl
      · rw [hdi]
        exact (shouldCopy_some_iff si di).mpr hcond
  · intro di hdi hsz
    rw [mem_planCopy]
    refine ⟨si, hmem, ?_⟩
    rw [hdi]
    exact (shouldCopy_some_iff si di).mpr (Or.inl hsz)

theorem copy_decision_rule_witness :
    "a" ∈ planCopy [("a", ObjectInfo.mk "a" 5 10)] [] :=
  ((copy_decision_rule [("a", ObjectInfo.mk "a" 5 10)] [] "a" (ObjectInfo.mk "a" 5 10)
      (by decide) rfl).1).mpr (Or.inl rfl)

/-- C2: with deletion disabled the delete set is empty and no delete job
is ever submitted; with deletion enabled a path is deleted exactly when it
is present in the destination and absent from the source, with no size or
time comparison. -/
theorem delete_decision_rule (src dst : Snapshot) (p : String)
    (copyRes delRes : String → Option String) :
    planDelete src dst false = []
    ∧ mkJobs src dst false copyRes delRes
        = (planCopy src dst).map (fun q => ⟨q, copyRes q⟩)
    ∧ (p ∈ planDelete src dst true
        ↔ p ∈ dst.map Prod.fst ∧ Snapshot.find? src p = none) := by
  refine ⟨rfl, ?_, mem_planDelete⟩
  simp [mkJobs, planDelete]

/-- C8: after a successful run every source entry is present at the
destination with the source's size and a modification time not earlier
than the source's, and (when deletion is enabled) every destination path
exists in the source; the second run then plans no copy and no delete. -/
theorem second_run_empty_plan (src dst : Snapshot) (del : Bool)
    (hcov : ∀ e ∈ src, ∃ di, Snapshot.find? dst e.1 = some di
              ∧ di.size = e.2.size ∧ e.2.modTime ≤ di.modTime)
    (hdel : del = true → ∀ e ∈ dst, (Snapshot.find? src e.1).isSome = true) :
    planCopy src dst = [] ∧ planDelete src dst del = [] := by
  constructor
  · unfold planCopy
    rw [List.map_eq_nil_iff, List.filter_eq_nil_iff]
    intro e he
    rcases hcov e he with ⟨di, hdi, hsz, hmt⟩
    rw [hdi, shouldCopy_some_iff]
    push_neg
    exact ⟨hsz.symm, fun _ => hmt⟩
  · cases del with
    | false => rfl
    | true =>
      unfold planDelete
      rw [if_pos rfl, List.map_eq_nil_iff, List.filter_eq_nil_iff]
      intro e he
      have hs := hdel rfl e he
      intro hn
      rw [Option.isNone_iff_eq_none] at hn
      rw [hn] at hs
      simp at hs

theorem second_run_empty_plan_witness :
    planCopy [("a", ObjectInfo.mk "a" 5 10)] [("a", ObjectInfo.mk "a" 5 12)] = []
    ∧ planDelete [("a", ObjectInfo.mk "a" 5 10)] [("a", ObjectInfo.mk "a" 5 12)] true = [] :=
  second_run_empty_plan _ _ true
    (by
      intro e he
      rw [List.mem_singleton] at he
      subst he
      exact ⟨ObjectInfo.mk "a" 5 12, rfl, rfl, by norm_num⟩)
    (by
      intro _ e he
      rw [List.mem_singleton] at he
      subst he
      rfl)

theorem find?_eraseKey {s : Snapshot} {q p : String} (h : q ≠ p) :
    Snapshot.find? (Snapshot.eraseKey s q) p = Snapshot.find? s p := by
  induction s with
  | nil => rfl
  | cons e rest ih =>
    obtain ⟨a, b⟩ := e
    by_cases ha : a = q
    · subst ha
      rw [Snapshot.eraseKey, if_pos rfl, Snapshot.find?, if_neg h, ih]
    · rw [Snapshot.eraseKey, if_neg ha, Snapshot.find?, Snapshot.find?]
      by_cases hap : a = p
      · rw [if_pos hap, if_pos hap]
      · rw [if_neg hap, if_neg hap, ih]

theorem find?_insert (s : Snapshot) (q p : String) (v : ObjectInfo) :
    Snapshot.find? (s.insert q v) p
      = if q = p then some v else Snapshot.find? s p := by
  by_cases hq : q = p
  · rw [Snapshot.insert, Snapshot.find?, if_pos hq, if_pos hq]
  · rw [Snapshot.insert, Snapshot.find?, if_neg hq, if_neg hq, find?_eraseKey hq]

theorem walkLocalGo_find?_none {f : String → Bool} {p : String} (hp : f p = false) :
    ∀ (events : List WalkEvent) (acc snap : Snapshot),
      Snapshot.find? acc p = none →
      walkLocalGo (some f) events acc = Except.ok snap →
      Snapshot.find? snap p = none := by
  intro events
  induction events with
  | nil =>
    intro acc snap hacc hrun
    cases hrun
    exact hacc
  | cons ev rest ih =>
    intro acc snap hacc hrun
    cases ev with
    | errEvent e => exact absurd hrun (by simp [walkLocalGo])
    | dirEvent q => exact ih acc snap hacc hrun
    | fileEvent q meta =>
      simp only [walkLocalGo] at hrun
      by_cases hfq : f q = true
      · rw [if_pos (show filterPass (some f) q = true from hfq)] at hrun
        cases meta with
        | error e => exact absurd hrun (by simp)
        | ok m =>
          refine ih _ snap ?_ hrun
          rw [find?_insert]
          have hqp : q ≠ p := by
            intro hqp
            rw [hqp, hp] at hfq
            exact Bool.noConfusion hfq
          rw [if_neg hqp]
          exact hacc
      · rw [if_neg (show ¬ filterPass (some f) q = true from hfq)] at hrun
        exact ih acc snap hacc hrun

theorem processObj_find?_none {f : String → Bool} {p : String} (hp : f p = false)
    (pfx : String) (acc : Snapshot) (obj : RawObject)
    (hacc : Snapshot.find? acc p = none) :
    Snapshot.find? (processObj (some f) pfx acc obj) p = none := by
  rw [processObj]
  cases hrel : s3RelPath pfx obj.key with
  | none => exact hacc
  | some rel =>
    show (if filterPass (some f) rel = true then
        acc.insert rel ⟨obj.key, obj.size, obj.modTime⟩ else acc).find? p = none
    by_cases hfr : f rel = true
    · rw [if_pos (show filterPass (some f) rel = true from hfr), find?_insert]
      have hqp : rel ≠ p := by
        intro hqp
        rw [hqp, hp] at hfr
        exact Bool.noConfusion hfr
      rw [if_neg hqp]
      exact hacc
    · rw [if_neg (show ¬ filterPass (some f) rel = true from hfr)]
      exact hacc

theorem foldl_processObj_find?_none {f : String → Bool} {p : String} (hp : f p = false)
    (pfx : String) :
    ∀ (objs : List RawObject) (acc : Snapshot),
      Snapshot.find? acc p = none →
      Snapshot.find? (objs.foldl (processObj (some f) pfx) acc) p = none := by
  intro objs
  induction objs with
  | nil => intro acc hacc; exact hacc
  | cons o rest ih =>
    intro acc hacc
    exact ih _ (processObj_find?_none hp pfx acc o hacc)

theorem listS3Go_find?_none {f : String → Bool} {p : String} (hp : f p = false)
    (pfx : String) :
    ∀ (pages : List (Except String (List RawObject))) (acc snap : Snapshot),
      Snapshot.find? acc p = none →
      listS3Go (some f) pfx pages acc = Except.ok snap →
      Snapshot.find? snap p = none := by
  intro pages
  induction pages with
  | nil =>
    intro acc snap hacc hrun
    cases hrun
    exact hacc
  | cons pg rest ih =>
    intro acc snap hacc hrun
    cases pg with
    | error e => exact absurd hrun (by simp [listS3Go])
    | ok objs =>
      rw [listS3Go] at hrun
      exact ih _ snap (foldl_processObj_find?_none hp pfx objs acc hacc) hrun

/-- C5: a path rejected by the filter predicate never appears in the
snapshot produced by either enumerator, whatever the underlying storage
holds; both enumerators test the predicate before inserting. -/
theorem filter_excludes_path (f : String → Bool) (p : String) (hp : f p = false)
    (events : List WalkEvent) (pages : List (Except String (List RawObject)))
    (pfx : String) :
    (∀ snap, walkLocal events (some f) = Except.ok snap →
        Snapshot.find? snap p = none)
    ∧ (∀ snap, listS3Objects (some f) pfx pages = Except.ok snap →
        Snapshot.find? snap p = none) := by
  constructor
  · intro snap hrun
    exact walkLocalGo_find?_none hp events [] snap rfl hrun
  · intro snap hrun
    exact listS3Go_find?_none hp pfx pages [] snap rfl hrun

theorem filter_excludes_path_witness :
    Snapshot.find? [("keep", ObjectInfo.mk "keep" 3 4)] "x" = none :=
  (filter_excludes_path (fun q => decide (q ≠ "x")) "x" (by decide)
      [WalkEvent.fileEvent "x" (Except.ok ⟨1, 2⟩),
       WalkEvent.fileEvent "keep" (Except.ok ⟨3, 4⟩)]
      [] "").1
    [("keep", ObjectInfo.mk "keep" 3 4)] rfl

theorem mk_eq_empty_iff (l : List Char) : String.mk l = "" ↔ l = [] := by
  constructor
  · intro h
    have h2 := congrArg String.data h
    simpa using h2
  · intro h
    rw [h]

theorem hasPfx_append (p r : String) : hasPfx (p ++ r) p = true := by
  rw [hasPfx, String.data_append, List.isPrefixOf_iff_prefix]
  exact List.prefix_append _ _

theorem trimPfx_append (p r : String) : trimPfx (p ++ r) p = r := by
  rw [trimPfx, if_pos (hasPfx_append p r), String.data_append, List.drop_left]

theorem trimPfx_slash_data (r : String) :
    (trimPfx r "/").data = stripLeadingSepSpec r.data := by
  obtain ⟨rl⟩ := r
  cases rl with
  | nil => rfl
  | cons c t =>
    by_cases hc : c = '/'
    · subst hc
      have hpf : hasPfx (String.mk ('/' :: t)) "/" = true := by
        show List.isPrefixOf ['/'] ('/' :: t) = true
        simp [List.isPrefixOf]
      rw [trimPfx, if_pos hpf, stripLeadingSepSpec,
          if_pos (show (String.mk ('/' :: t)).data.head? = some '/' from rfl)]
      simp
    · have hb : ('/' == c) = false := beq_eq_false_iff_ne.mpr (Ne.symm hc)
      have hpf : hasPfx (String.mk (c :: t)) "/" = false := by
        show List.isPrefixOf ['/'] (c :: t) = false
        simp [List.isPrefixOf, hb]
      rw [trimPfx, if_neg (by rw [hpf]; exact Bool.false_ne_true)]
      rw [stripLeadingSepSpec, if_neg (by simp [hc])]

theorem s3RelPath_append (pfx rest : String) (h : pfx ≠ "") :
    s3RelPath pfx (pfx ++ rest)
      = if stripLeadingSepSpec rest.data = [] then none
        else some (String.mk (stripLeadingSepSpec rest.data)) := by
  rw [s3RelPath, if_neg h, if_pos (hasPfx_append pfx rest), trimPfx_append]
  show (if trimPfx rest "/" = "" then none else some (trimPfx rest "/")) = _
  have hstr : trimPfx rest "/" = String.mk (stripLeadingSepSpec rest.data) := by
    rw [← trimPfx_slash_data rest]
  rw [hstr]
  by_cases hemp : stripLeadingSepSpec rest.data = []
  · rw [if_pos hemp, if_pos ((mk_eq_empty_iff _).mpr hemp)]
  · rw [if_neg hemp, if_neg (fun he => hemp ((mk_eq_empty_iff _).mp he))]

/-- C6: for every key lying under a non-empty configured key namespace,
the remote enumerator's relative path equals the remainder of the key
with at most one leading separator removed, and a key whose computed
relative path is empty -- in particular the namespace key itself -- is
skipped, never inserted into the snapshot. -/
theorem s3_rel_path_strip (pfx rest : String) (h : pfx ≠ "") :
    (s3RelPath pfx (pfx ++ rest)
      = if stripLeadingSepSpec rest.data = [] then none
        else some (String.mk (stripLeadingSepSpec rest.data)))
    ∧ (∀ fil acc obj, s3RelPath pfx obj.key = none →
        processObj fil pfx acc obj = acc)
    ∧ (∀ fil acc sz mt, processObj fil pfx acc ⟨pfx, sz, mt⟩ = acc) := by
  have hskip : ∀ (fil : Option (String → Bool)) (acc : Snapshot) (obj : RawObject),
      s3RelPath pfx obj.key = none → processObj fil pfx acc obj = acc := by
    intro fil acc obj hnone
    simp only [processObj, hnone]
  refine ⟨s3RelPath_append pfx rest h, hskip, ?_⟩
  intro fil acc sz mt
  apply hskip
  show s3RelPath pfx pfx = none
  have hp0 : pfx ++ "" = pfx := by
    obtain ⟨pl⟩ := pfx
    show String.mk (pl ++ []) = String.mk pl
    rw [List.append_nil]
  nth_rewrite 2 [← hp0]
  rw [s3RelPath_append pfx "" h]
  decide

theorem s3_rel_path_strip_witness :
    s3RelPath "docs" ("docs" ++ "/a.txt") = some "a.txt" := by
  rw [(s3_rel_path_strip "docs" "/a.txt" (by decide)).1]
  rfl

theorem walkLocalGo_error_of_bad {fil : Option (String → Bool)} :
    ∀ events : List WalkEvent, badWalkEvents fil events →
      ∀ acc, ∃ msg, walkLocalGo fil events acc = Except.error msg := by
  intro events
  induction events with
  | nil =>
    intro hbad
    rcases hbad with ⟨e, he⟩ | ⟨p, m, hm, _⟩
    · exact absurd he (List.not_mem_nil _)
    · exact absurd hm (List.not_mem_nil _)
  | cons ev rest ih =>
    intro hbad acc
    cases ev with
    | errEvent e =>
      exact ⟨"failed to walk local directory: " ++ e, by simp [walkLocalGo]⟩
    | dirEvent q =>
      have hbad' : badWalkEvents fil rest := by
        rcases hbad with ⟨e, he⟩ | ⟨p, m, hm, hf⟩
        · rcases List.mem_cons.mp he with heq | hmem
          · exact absurd heq (by simp)
          · exact Or.inl ⟨e, hmem⟩
        · rcases List.mem_cons.mp hm with heq | hmem
          · exact absurd heq (by simp)
          · exact Or.inr ⟨p, m, hmem, hf⟩
      simpa [walkLocalGo] using ih hbad' acc
    | fileEvent q meta =>
      by_cases hfp : filterPass fil q = true
      · cases meta with
        | error e =>
          refine ⟨"failed to walk local directory: failed to get file info: " ++ e, ?_⟩
          simp only [walkLocalGo]
          rw [if_pos hfp]
        | ok m =>
          have hbad' : badWalkEvents fil rest := by
            rcases hbad with ⟨e, he⟩ | ⟨p, m', hm, hf⟩
            · rcases List.mem_cons.mp he with heq | hmem
              · exact absurd heq (by simp)
              · exact Or.inl ⟨e, hmem⟩
            · rcases List.mem_cons.mp hm with heq | hmem
              · exact absurd heq (by simp)
              · exact Or.inr ⟨p, m', hmem, hf⟩
          rcases ih hbad' (acc.insert q ⟨q, m.size, m.modTime⟩) with ⟨msg, hmsg⟩
          refine ⟨msg, ?_⟩
          simp only [walkLocalGo]
          rw [if_pos hfp]
          exact hmsg
      · have hbad' : badWalkEvents fil rest := by
          rcases hbad with ⟨e, he⟩ | ⟨p, m', hm, hf⟩
          · rcases List.mem_cons.mp he with heq | hmem
            · exact absurd heq (by simp)
            · exact Or.inl ⟨e, hmem⟩
          · rcases List.mem_cons.mp hm with heq | hmem
            · injection heq with hpq hmeta
              exact absurd (hpq ▸ hf) hfp
            · exact Or.inr ⟨p, m', hmem, hf⟩
        rcases ih hbad' acc with ⟨msg, hmsg⟩
        refine ⟨msg, ?_⟩
        simp only [walkLocalGo]
        rw [if_neg hfp]
        exact hmsg

theorem listS3Go_error_of_bad {fil : Option (String → Bool)} {pfx : String} :
    ∀ pages, badPages pages →
      ∀ acc, ∃ msg, listS3Go fil pfx pages acc = Except.error msg := by
  intro pages
  induction pages with
  | nil =>
    intro hbad
    rcases hbad with ⟨e, he⟩
    exact absurd he (List.not_mem_nil _)
  | cons pg rest ih =>
    intro hbad acc
    cases pg with
    | error e => exact ⟨"failed to list objects: " ++ e, by simp [listS3Go]⟩
    | ok objs =>
      have hbad' : badPages rest := by
        rcases hbad with ⟨e, he⟩
        rcases List.mem_cons.mp he with heq | hmem
        · exact absurd heq (by simp)
        · exact ⟨e, hmem⟩
      simpa [listS3Go] using ih hbad' (objs.foldl (processObj fil pfx) acc)

/-- C7: a malformed or unreadable entry on either side (walk callback
error, unreadable file info, failing listing page) makes the enumeration
return an error and no snapshot, and both sync directions propagate that
error with no copy or delete job ever dispatched to a worker. -/
theorem enumeration_error_aborts (pfx : String) (fil : Option (String → Bool))
    (events : List WalkEvent) (pages : List (Except String (List RawObject)))
    (del : Bool) (copyRes delRes : String → Option String) (k : Nat)
    (acts : List PoolAction)
    (hbad : badWalkEvents fil events ∨ badPages pages) :
    (badWalkEvents fil events → ∃ msg, walkLocal events fil = Except.error msg)
    ∧ (badPages pages → ∃ msg, listS3Objects fil pfx pages = Except.error msg)
    ∧ (∃ msg, (syncS3ToLocalRun pfx pages events fil del copyRes delRes k acts).1
        = Except.error msg)
    ∧ (syncS3ToLocalRun pfx pages events fil del copyRes delRes k acts).2.dispatched = []
    ∧ (∃ msg, (syncLocalToS3Run pfx pages events fil del copyRes delRes k acts).1
        = Except.error msg)
    ∧ (syncLocalToS3Run pfx pages events fil del copyRes delRes k acts).2.dispatched = [] := by
  have hA : badWalkEvents fil events → ∃ msg, walkLocal events fil = Except.error msg :=
    fun h => walkLocalGo_error_of_bad events h []
  have hB : badPages pages → ∃ msg, listS3Objects fil pfx pages = Except.error msg :=
    fun h => listS3Go_error_of_bad pages h []
  refine ⟨hA, hB, ?_⟩
  have hs3ToLocal :
      (∃ msg, (syncS3ToLocalRun pfx pages events fil del copyRes delRes k acts).1
        = Except.error msg)
      ∧ (syncS3ToLocalRun pfx pages events fil del copyRes delRes k acts).2.dispatched
        = [] := by
    cases hs3 : listS3Objects fil pfx pages with
    | error e =>
      constructor
      · exact ⟨e, by simp [syncS3ToLocalRun, hs3]⟩
      · simp [syncS3ToLocalRun, hs3]
    | ok srcObjs =>
      have hw : badWalkEvents fil events := by
        rcases hbad with h | h
        · exact h
        · rcases hB h with ⟨msg, hmsg⟩
          rw [hs3] at hmsg
          exact absurd hmsg (by simp)
      rcases hA hw with ⟨msg, hmsg⟩
      constructor
      · exact ⟨msg, by simp [syncS3ToLocalRun, hs3, hmsg]⟩
      · simp [syncS3ToLocalRun, hs3, hmsg]
  have hLocalToS3 :
      (∃ msg, (syncLocalToS3Run pfx pages events fil del copyRes delRes k acts).1
        = Except.error msg)
      ∧ (syncLocalToS3Run pfx pages events fil del copyRes delRes k acts).2.dispatched
        = [] := by
    cases hwk : walkLocal events fil with
    | error e =>
      constructor
      · exact ⟨e, by simp [syncLocalToS3Run, hwk]⟩
      · simp [syncLocalToS3Run, hwk]
    | ok srcObjs =>
      have hpg : badPages pages := by
        rcases hbad with h | h
        · rcases hA h with ⟨msg, hmsg⟩
          rw [hwk] at hmsg
          exact absurd hmsg (by simp)
        · exact h
      rcases hB hpg with ⟨msg, hmsg⟩
      constructor
      · exact ⟨msg, by simp [syncLocalToS3Run, hwk, hmsg]⟩
      · simp [syncLocalToS3Run, hwk, hmsg]
  exact ⟨hs3ToLocal.1, hs3ToLocal.2, hLocalToS3.1, hLocalToS3.2⟩

theorem enumeration_error_aborts_witness :
    (syncS3ToLocalRun "" [] [WalkEvent.errEvent "denied"] none false
        (fun _ => none) (fun _ => none) 0 []).2.dispatched = [] :=
  (enumeration_error_aborts "" none [WalkEvent.errEvent "denied"] [] false
      (fun _ => none) (fun _ => none) 0 []
      (Or.inl (Or.inl ⟨"denied", List.mem_singleton.mpr rfl⟩))).2.2.2.1

/-- C3: `Sync` classifies each endpoint by the `s3://` scheme test; when
both endpoints are remote or both are local it returns the
unsupported-mode error with no enumeration attempted and no job
dispatched, and when exactly one endpoint is remote it proceeds in the
corresponding direction. -/
theorem sync_mode_classification (src dst : String)
    (pages : List (Except String (List RawObject))) (events : List WalkEvent)
    (fil : Option (String → Bool)) (del : Bool)
    (copyRes delRes : String → Option String) (k : Nat) (acts : List PoolAction) :
    (hasPfx src "s3://" = hasPfx dst "s3://" →
      syncRun src dst pages events fil del copyRes delRes k acts
        = (Except.error ("unsupported sync mode: " ++ src ++ " -> " ++ dst
            ++ " (only S3<->Local supported)"), ⟨0, []⟩))
    ∧ (hasPfx src "s3://" = true → hasPfx dst "s3://" = false →
      syncRun src dst pages events fil del copyRes delRes k acts
        = syncS3ToLocalRun (parseS3URI src).2 pages events fil del copyRes delRes k acts)
    ∧ (hasPfx src "s3://" = false → hasPfx dst "s3://" = true →
      syncRun src dst pages events fil del copyRes delRes k acts
        = syncLocalToS3Run (parseS3URI dst).2 pages events fil del copyRes delRes k acts) := by
  cases hs : hasPfx src "s3://" <;> cases hd : hasPfx dst "s3://"
  · exact ⟨fun _ => by simp [syncRun, hs, hd],
      fun h1 _ => absurd h1 (by decide), fun _ h2 => absurd h2 (by decide)⟩
  · exact ⟨fun heq => absurd heq (by decide),
      fun h1 _ => absurd h1 (by decide), fun _ _ => by simp [syncRun, hs, hd]⟩
  · exact ⟨fun heq => absurd heq (by decide),
      fun _ _ => by simp [syncRun, hs, hd], fun _ h2 => absurd h2 (by decide)⟩
  · exact ⟨fun _ => by simp [syncRun, hs, hd],
      fun _ h2 => absurd h2 (by decide), fun h1 _ => absurd h1 (by decide)⟩

theorem sync_mode_classification_witness :
    syncRun "s3://b" "s3://c" [] [] none false (fun _ => none) (fun _ => none) 0 []
      = (Except.error "unsupported sync mode: s3://b -> s3://c (only S3<->Local supported)",
          ⟨0, []⟩) := by
  rw [(sync_mode_classification "s3://b" "s3://c" [] [] none false
      (fun _ => none) (fun _ => none) 0 []).1 (by decide)]
  rfl

theorem stepPool_submit_inv {s s' : PoolState}
    (h : stepPool s PoolAction.submit = some s') :
    ∃ j rest, s.toSubmit = j :: rest ∧ s.producerDone = false
      ∧ s.queue.length < jobsCap
      ∧ s' = { s with toSubmit := rest, queue := s.queue ++ [j] } := by
  simp only [stepPool] at h
  cases hts : s.toSubmit with
  | nil =>
    simp only [hts] at h
    exact Option.noConfusion h
  | cons j rest =>
    simp only [hts] at h
    by_cases hpd : s.producerDone = true
    · rw [if_pos hpd] at h
      exact Option.noConfusion h
    · rw [if_neg hpd] at h
      by_cases hq : s.queue.length < jobsCap
      · rw [if_pos hq] at h
        exact ⟨j, rest, rfl, by simpa using hpd, hq, (Option.some_inj.mp h).symm⟩
      · rw [if_neg hq] at h
        exact Option.noConfusion h

theorem stepPool_producerStop_inv {s s' : PoolState}
    (h : stepPool s PoolAction.producerStop = some s') :
    s.producerDone = false ∧ (s.toSubmit.isEmpty || ctxDone s) = true
      ∧ s' = { s with producerDone := true, closed := true } := by
  simp only [stepPool] at h
  by_cases hpd : s.producerDone = true
  · rw [if_pos hpd] at h
    exact Option.noConfusion h
  · rw [if_neg hpd] at h
    by_cases hc : (s.toSubmit.isEmpty || ctxDone s) = true
    · rw [if_pos hc] at h
      exact ⟨by simpa using hpd, hc, (Option.some_inj.mp h).symm⟩
    · rw [if_neg hc] at h
      exact Option.noConfusion h

theorem stepPool_dequeue_inv {s s' : PoolState} {i : Nat}
    (h : stepPool s (PoolAction.dequeue i) = some s') :
    ∃ j qrest, s.workers[i]? = some WStatus.idle ∧ s.queue = j :: qrest
      ∧ s' = { s with queue := qrest,
                      workers := s.workers.set i (WStatus.busy j),
                      dispatched := s.dispatched ++ [j] } := by
  simp only [stepPool] at h
  cases hw : s.workers[i]? with
  | none =>
    simp only [hw] at h
    exact Option.noConfusion h
  | some st =>
    cases st with
    | idle =>
      simp only [hw] at h
      cases hq : s.queue with
      | nil =>
        simp only [hq] at h
        exact Option.noConfusion h
      | cons j qrest =>
        simp only [hq] at h
        exact ⟨j, qrest, rfl, rfl, (Option.some_inj.mp h).symm⟩
    | busy j =>
      simp only [hw] at h
      exact Option.noConfusion h
    | done =>
      simp only [hw] at h
      exact Option.noConfusion h

theorem stepPool_finish_inv {s s' : PoolState} {i : Nat}
    (h : stepPool s (PoolAction.finish i) = some s') :
    ∃ j, s.workers[i]? = some (WStatus.busy j)
      ∧ ((j.res = none ∧ s' = { s with workers := s.workers.set i WStatus.idle })
        ∨ (∃ e, j.res = some e
            ∧ s' = { s with
                workers := s.workers.set i WStatus.done,
                failLog := s.failLog ++ [e],
                errs := if s.errs.length < errsCap then s.errs ++ [e] else s.errs,
                ctxErr := if ctxDone s then s.ctxErr else some CtxErr.canceled })) := by
  simp only [stepPool] at h
  cases hw : s.workers[i]? with
  | none =>
    simp only [hw] at h
    exact Option.noConfusion h
  | some st =>
    cases st with
    | idle =>
      simp only [hw] at h
      exact Option.noConfusion h
    | busy j =>
      simp only [hw] at h
      cases hr : j.res with
      | none =>
        simp only [hr] at h
        exact ⟨j, rfl, Or.inl ⟨hr, (Option.some_inj.mp h).symm⟩⟩
      | some e =>
        simp only [hr] at h
        exact ⟨j, rfl, Or.inr ⟨e, hr, (Option.some_inj.mp h).symm⟩⟩
    | done =>
      simp only [hw] at h
      exact Option.noConfusion h

theorem stepPool_wObserveClose_inv {s s' : PoolState} {i : Nat}
    (h : stepPool s (PoolAction.wObserveClose i) = some s') :
    s.workers[i]? = some WStatus.idle ∧ (s.closed && s.queue.isEmpty) = true
      ∧ s' = { s with workers := s.workers.set i WStatus.done } := by
  simp only [stepPool] at h
  cases hw : s.workers[i]? with
  | none =>
    simp only [hw] at h
    exact Option.noConfusion h
  | some st =>
    cases st with
    | idle =>
      simp only [hw] at h
      by_cases hc : (s.closed && s.queue.isEmpty) = true
      · rw [if_pos hc] at h
        exact ⟨rfl, hc, (Option.some_inj.mp h).symm⟩
      · rw [if_neg hc] at h
        exact Option.noConfusion h
    | busy j =>
      simp only [hw] at h
      exact Option.noConfusion h
    | done =>
      simp only [hw] at h
      exact Option.noConfusion h

theorem stepPool_wObserveCancel_inv {s s' : PoolState} {i : Nat}
    (h : stepPool s (PoolAction.wObserveCancel i) = some s') :
    s.workers[i]? = some WStatus.idle ∧ ctxDone s = true
      ∧ s' = { s with workers := s.workers.set i WStatus.done } := by
  simp only [stepPool] at h
  cases hw : s.workers[i]? with
  | none =>
    simp only [hw] at h
    exact Option.noConfusion h
  | some st =>
    cases st with
    | idle =>
      simp only [hw] at h
      by_cases hc : ctxDone s = true
      · rw [if_pos hc] at h
        exact ⟨rfl, hc, (Option.some_inj.mp h).symm⟩
      · rw [if_neg hc] at h
        exact Option.noConfusion h
    | busy j =>
      simp only [hw] at h
      exact Option.noConfusion h
    | done =>
      simp only [hw] at h
      exact Option.noConfusion h

theorem stepPool_extCancel_inv {s s' : PoolState} {e : CtxErr}
    (h : stepPool s (PoolAction.extCancel e) = some s') :
    ctxDone s = false ∧ s' = { s with ctxErr := some e } := by
  simp only [stepPool] at h
  by_cases hc : ctxDone s = true
  · rw [if_pos hc] at h
    exact Option.noConfusion h
  · rw [if_neg hc] at h
    exact ⟨by simpa using hc, (Option.some_inj.mp h).symm⟩

theorem runPool_append (s : PoolState) (l1 l2 : List PoolAction) :
    runPool s (l1 ++ l2) = runPool (runPool s l1) l2 := by
  induction l1 generalizing s with
  | nil => rfl
  | cons a rest ih => rw [List.cons_append, runPool, runPool, ih]

theorem applyAct_preserve {P : PoolState → Prop}
    (hstep : ∀ s a s', stepPool s a = some s' → P s → P s') :
    ∀ s a, P s → P (applyAct s a) := by
  intro s a hP
  cases hsa : stepPool s a with
  | none => simpa [applyAct, hsa] using hP
  | some s' => simpa [applyAct, hsa] using hstep s a s' hsa hP

theorem runPool_preserve {P : PoolState → Prop}
    (hstep : ∀ s a s', stepPool s a = some s' → P s → P s') :
    ∀ (acts : List PoolAction) (s : PoolState), P s → P (runPool s acts) := by
  intro acts
  induction acts with
  | nil => intro s h; exact h
  | cons a rest ih =>
    intro s h
    rw [runPool]
    exact ih _ (applyAct_preserve hstep s a h)

theorem stepPool_preserves_len {s s' : PoolState} {a : PoolAction}
    (h : stepPool s a = some s') : s'.workers.length = s.workers.length := by
  cases a with
  | submit =>
    rcases stepPool_submit_inv h with ⟨j, rest, _, _, _, rfl⟩
    rfl
  | producerStop =>
    rcases stepPool_producerStop_inv h with ⟨_, _, rfl⟩
    rfl
  | dequeue i =>
    rcases stepPool_dequeue_inv h with ⟨j, q, _, _, rfl⟩
    simp
  | finish i =>
    rcases stepPool_finish_inv h with ⟨j, _, hcase⟩
    rcases hcase with ⟨_, rfl⟩ | ⟨e, _, rfl⟩ <;> simp
  | wObserveClose i =>
    rcases stepPool_wObserveClose_inv h with ⟨_, _, rfl⟩
    simp
  | wObserveCancel i =>
    rcases stepPool_wObserveCancel_inv h with ⟨_, _, rfl⟩
    simp
  | extCancel e =>
    rcases stepPool_extCancel_inv h with ⟨_, rfl⟩
    rfl

/-- The two always-true facts about one `executeSync` run: `errChan` holds
the first `errsCap` entries of the failure log, and any failure implies
the derived context has been cancelled. -/
def PoolInv (s : PoolState) : Prop :=
  s.errs = s.failLog.take errsCap ∧ (s.failLog ≠ [] → s.ctxErr.isSome = true)

theorem stepPool_preserves_inv {s s' : PoolState} {a : PoolAction}
    (h : stepPool s a = some s') (hinv : PoolInv s) : PoolInv s' := by
  obtain ⟨herrs, hfail⟩ := hinv
  cases a with
  | submit =>
    rcases stepPool_submit_inv h with ⟨j, rest, _, _, _, rfl⟩
    exact ⟨herrs, hfail⟩
  | producerStop =>
    rcases stepPool_producerStop_inv h with ⟨_, _, rfl⟩
    exact ⟨herrs, hfail⟩
  | dequeue i =>
    rcases stepPool_dequeue_inv h with ⟨j, q, _, _, rfl⟩
    exact ⟨herrs, hfail⟩
  | finish i =>
    rcases stepPool_finish_inv h with ⟨j, _, hcase⟩
    rcases hcase with ⟨_, rfl⟩ | ⟨e, _, rfl⟩
    · exact ⟨herrs, hfail⟩
    · constructor
      · show (if s.errs.length < errsCap then s.errs ++ [e] else s.errs)
            = (s.failLog ++ [e]).take errsCap
        have hlen : s.errs.length = min errsCap s.failLog.length := by
          rw [herrs, List.length_take]
        by_cases hcap : s.errs.length < errsCap
        · have hfl : s.failLog.length < errsCap := by omega
          rw [if_pos hcap, herrs,
              List.take_of_length_le (Nat.le_of_lt hfl),
              List.take_of_length_le (by simp; omega)]
        · have hfl : errsCap ≤ s.failLog.length := by omega
          rw [if_neg hcap, herrs, List.take_append_of_le_length hfl]
      · intro _
        show Option.isSome (if ctxDone s then s.ctxErr else some CtxErr.canceled) = true
        by_cases hcd : ctxDone s = true
        · rw [if_pos hcd]
          exact hcd
        · rw [if_neg hcd]
          rfl
  | wObserveClose i =>
    rcases stepPool_wObserveClose_inv h with ⟨_, _, rfl⟩
    exact ⟨herrs, hfail⟩
  | wObserveCancel i =>
    rcases stepPool_wObserveCancel_inv h with ⟨_, _, rfl⟩
    exact ⟨herrs, hfail⟩
  | extCancel e =>
    rcases stepPool_extCancel_inv h with ⟨_, rfl⟩
    exact ⟨herrs, fun _ => rfl⟩

theorem runPool_inv (jobs : List MJob) (k : Nat) (acts : List PoolAction) :
    PoolInv (runPool (initPool jobs k) acts) := by
  refine runPool_preserve (fun s a s' h hp => stepPool_preserves_inv h hp) acts _ ?_
  exact ⟨rfl, fun hne => absurd rfl hne⟩

/-- With no external cancellation, the derived context is either live or
cancelled by a failure, never expired by a deadline. -/
def NoExtInv (s : PoolState) : Prop :=
  s.ctxErr = none ∨ (s.ctxErr = some CtxErr.canceled ∧ s.failLog ≠ [])

theorem stepPool_preserves_noExtInv {s s' : PoolState} {a : PoolAction}
    (h : stepPool s a = some s') (hne : ∀ e, a ≠ PoolAction.extCancel e)
    (hinv : NoExtInv s) : NoExtInv s' := by
  cases a with
  | submit =>
    rcases stepPool_submit_inv h with ⟨j, rest, _, _, _, rfl⟩
    exact hinv
  | producerStop =>
    rcases stepPool_producerStop_inv h with ⟨_, _, rfl⟩
    exact hinv
  | dequeue i =>
    rcases stepPool_dequeue_inv h with ⟨j, q, _, _, rfl⟩
    exact hinv
  | finish i =>
    rcases stepPool_finish_inv h with ⟨j, _, hcase⟩
    rcases hcase with ⟨_, rfl⟩ | ⟨e, _, rfl⟩
    · exact hinv
    · right
      constructor
      · show (if ctxDone s then s.ctxErr else some CtxErr.canceled)
            = some CtxErr.canceled
        rcases hinv with hnone | ⟨hcanc, _⟩
        · rw [if_neg (by rw [ctxDone, hnone]; simp)]
        · rw [hcanc]
          by_cases hcd : ctxDone s = true
          · rw [if_pos hcd]
          · rw [if_neg hcd]
      · simp
  | wObserveClose i =>
    rcases stepPool_wObserveClose_inv h with ⟨_, _, rfl⟩
    exact hinv
  | wObserveCancel i =>
    rcases stepPool_wObserveCancel_inv h with ⟨_, _, rfl⟩
    exact hinv
  | extCancel e =>
    exact absurd rfl (hne e)

theorem runPool_noExtInv (acts : List PoolAction)
    (hne : ∀ e, PoolAction.extCancel e ∉ acts) :
    ∀ s : PoolState, NoExtInv s → NoExtInv (runPool s acts) := by
  induction acts with
  | nil => intro s h; exact h
  | cons a rest ih =>
    intro s hinv
    have hna : ∀ e, a ≠ PoolAction.extCancel e := by
      intro e he
      exact hne e (by rw [he]; exact List.mem_cons_self _ _)
    have hrest : ∀ e, PoolAction.extCancel e ∉ rest :=
      fun e he => hne e (List.mem_cons_of_mem _ he)
    rw [runPool]
    apply ih hrest
    cases hsa : stepPool s a with
    | none => simpa [applyAct, hsa] using hinv
    | some s' => simpa [applyAct, hsa] using stepPool_preserves_noExtInv hsa hna hinv

theorem stepPool_producer_absorb {s s' : PoolState} {a : PoolAction}
    (h : stepPool s a = some s') (hpd : s.producerDone = true) :
    s'.producerDone = true ∧ s'.toSubmit = s.toSubmit := by
  cases a with
  | submit =>
    rcases stepPool_submit_inv h with ⟨j, rest, _, hfalse, _, rfl⟩
    rw [hpd] at hfalse
    exact absurd hfalse (by simp)
  | producerStop =>
    rcases stepPool_producerStop_inv h with ⟨hfalse, _, rfl⟩
    rw [hpd] at hfalse
    exact absurd hfalse (by simp)
  | dequeue i =>
    rcases stepPool_dequeue_inv h with ⟨j, q, _, _, rfl⟩
    exact ⟨hpd, rfl⟩
  | finish i =>
    rcases stepPool_finish_inv h with ⟨j, _, hcase⟩
    rcases hcase with ⟨_, rfl⟩ | ⟨e, _, rfl⟩ <;> exact ⟨hpd, rfl⟩
  | wObserveClose i =>
    rcases stepPool_wObserveClose_inv h with ⟨_, _, rfl⟩
    exact ⟨hpd, rfl⟩
  | wObserveCancel i =>
    rcases stepPool_wObserveCancel_inv h with ⟨_, _, rfl⟩
    exact ⟨hpd, rfl⟩
  | extCancel e =>
    rcases stepPool_extCancel_inv h with ⟨_, rfl⟩
    exact ⟨hpd, rfl⟩

theorem stepPool_done_absorb {s s' : PoolState} {a : PoolAction}
    (h : stepPool s a = some s') {w : Nat}
    (hw : s.workers[w]? = some WStatus.done) :
    s'.workers[w]? = some WStatus.done := by
  cases a with
  | submit =>
    rcases stepPool_submit_inv h with ⟨j, rest, _, _, _, rfl⟩
    exact hw
  | producerStop =>
    rcases stepPool_producerStop_inv h with ⟨_, _, rfl⟩
    exact hw
  | dequeue i =>
    rcases stepPool_dequeue_inv h with ⟨j, q, hidle, _, rfl⟩
    have hiw : i ≠ w := by
      intro he
      rw [he, hw] at hidle
      exact WStatus.noConfusion (Option.some_inj.mp hidle)
    show (s.workers.set i (WStatus.busy j))[w]? = some WStatus.done
    rw [List.getElem?_set_ne hiw]
    exact hw
  | finish i =>
    rcases stepPool_finish_inv h with ⟨j, hbusy, hcase⟩
    have hiw : i ≠ w := by
      intro he
      rw [he, hw] at hbusy
      exact WStatus.noConfusion (Option.some_inj.mp hbusy)
    rcases hcase with ⟨_, rfl⟩ | ⟨e, _, rfl⟩
    · show (s.workers.set i WStatus.idle)[w]? = some WStatus.done
      rw [List.getElem?_set_ne hiw]
      exact hw
    · show (s.workers.set i WStatus.done)[w]? = some WStatus.done
      rw [List.getElem?_set_ne hiw]
      exact hw
  | wObserveClose i =>
    rcases stepPool_wObserveClose_inv h with ⟨hidle, _, rfl⟩
    have hiw : i ≠ w := by
      intro he
      rw [he, hw] at hidle
      exact WStatus.noConfusion (Option.some_inj.mp hidle)
    show (s.workers.set i WStatus.done)[w]? = some WStatus.done
    rw [List.getElem?_set_ne hiw]
    exact hw
  | wObserveCancel i =>
    rcases stepPool_wObserveCancel_inv h with ⟨hidle, _, rfl⟩
    have hiw : i ≠ w := by
      intro he
      rw [he, hw] at hidle
      exact WStatus.noConfusion (Option.some_inj.mp hidle)
    show (s.workers.set i WStatus.done)[w]? = some WStatus.done
    rw [List.getElem?_set_ne hiw]
    exact hw
  | extCancel e =>
    rcases stepPool_extCancel_inv h with ⟨_, rfl⟩
    exact hw

theorem head?_take {α : Type} (l : List α) {n : Nat} (hn : 0 < n) :
    (l.take n).head? = l.head? := by
  cases l <;> cases n <;> simp_all

/-- C4: under any schedule with no external cancellation, a finished run of
the `executeSync` machinery returns exactly the error of the first job to
fail (and success when no job fails); later errors are discarded; the
first failure cancels the derived context; a job is only ever dequeued by
a worker that has not yet observed cancellation or closure, and submission
only happens while the producer runs -- once a worker has retired or the
producer has stopped, no schedule extension revives them or changes what
was submitted. -/
theorem execute_fail_fast (jobs : List MJob) (k : Nat) (acts : List PoolAction)
    (hext : ∀ e, PoolAction.extCancel e ∉ acts)
    (hterm : poolTerminal (runPool (initPool jobs k) acts)) :
    (execResult (runPool (initPool jobs k) acts)
      = (runPool (initPool jobs k) acts).failLog.head?)
    ∧ ((runPool (initPool jobs k) acts).failLog ≠ [] →
        (runPool (initPool jobs k) acts).ctxErr = some CtxErr.canceled)
    ∧ (∀ (t : PoolState) (w : Nat), stepPool t (PoolAction.dequeue w) ≠ none →
        t.workers[w]? = some WStatus.idle)
    ∧ (∀ t : PoolState, stepPool t PoolAction.submit ≠ none →
        t.producerDone = false)
    ∧ (∀ (more : List PoolAction) (w : Nat),
        (runPool (initPool jobs k) acts).workers[w]? = some WStatus.done →
        (runPool (initPool jobs k) (acts ++ more)).workers[w]? = some WStatus.done)
    ∧ (∀ more : List PoolAction,
        (runPool (initPool jobs k) (acts ++ more)).producerDone = true
        ∧ (runPool (initPool jobs k) (acts ++ more)).toSubmit
            = (runPool (initPool jobs k) acts).toSubmit) := by
  have hInv : PoolInv (runPool (initPool jobs k) acts) := runPool_inv jobs k acts
  have hNoExt : NoExtInv (runPool (initPool jobs k) acts) :=
    runPool_noExtInv acts hext (initPool jobs k) (Or.inl rfl)
  refine ⟨?_, ?_, ?_, ?_, ?_, ?_⟩
  · rcases hNoExt with hnone | ⟨hcanc, _⟩
    · rw [execResult, hnone, hInv.1, head?_take _ (by norm_num [errsCap])]
    · rw [execResult, hcanc, hInv.1, head?_take _ (by norm_num [errsCap])]
  · intro hne
    rcases hNoExt with hnone | ⟨hcanc, _⟩
    · have := hInv.2 hne
      rw [hnone] at this
      exact absurd this (by simp)
    · exact hcanc
  · intro t w hne
    cases hs : stepPool t (PoolAction.dequeue w) with
    | none => exact absurd hs hne
    | some t' =>
      rcases stepPool_dequeue_inv hs with ⟨j, q, hidle, _, _⟩
      exact hidle
  · intro t hne
    cases hs : stepPool t PoolAction.submit with
    | none => exact absurd hs hne
    | some t' =>
      rcases stepPool_submit_inv hs with ⟨j, rest, _, hpd, _, _⟩
      exact hpd
  · intro more w hw
    rw [runPool_append]
    exact runPool_preserve (fun s a s' h hp => stepPool_done_absorb h hp) more _ hw
  · intro more
    rw [runPool_append]
    have habs := runPool_preserve
      (P := fun t => t.producerDone = true
        ∧ t.toSubmit = (runPool (initPool jobs k) acts).toSubmit)
      (fun s a s' h hp =>
        ⟨(stepPool_producer_absorb h hp.1).1,
         ((stepPool_producer_absorb h hp.1).2).trans hp.2⟩)
      more (runPool (initPool jobs k) acts) ⟨hterm.1, rfl⟩
    exact habs

theorem execute_fail_fast_witness :
    execResult (runPool (initPool [⟨"a", some "boom"⟩, ⟨"b", none⟩] 1)
        [PoolAction.submit, PoolAction.submit, PoolAction.producerStop,
         PoolAction.dequeue 0, PoolAction.finish 0])
      = (runPool (initPool [⟨"a", some "boom"⟩, ⟨"b", none⟩] 1)
        [PoolAction.submit, PoolAction.submit, PoolAction.producerStop,
         PoolAction.dequeue 0, PoolAction.finish 0]).failLog.head? :=
  (execute_fail_fast [⟨"a", some "boom"⟩, ⟨"b", none⟩] 1
      [PoolAction.submit, PoolAction.submit, PoolAction.producerStop,
       PoolAction.dequeue 0, PoolAction.finish 0]
      (by intro e; cases e <;> decide) (by decide)).1

/-- C9: the pool started by `executeSync` consists of exactly
`concurrency` workers, each running at most one job at a time, so at most
`k` executor invocations are ever in flight under any schedule and plan;
the configured concurrency defaults to 16 and is always at least 1. -/
theorem concurrency_bound_holds (jobs : List MJob) (k : Nat)
    (acts : List PoolAction) :
    inFlight (runPool (initPool jobs k) acts) ≤ k
    ∧ resolveConcurrency none = 16
    ∧ (∀ parsed, 1 ≤ resolveConcurrency parsed) := by
  refine ⟨?_, rfl, ?_⟩
  · have hlen : (runPool (initPool jobs k) acts).workers.length = k :=
      runPool_preserve (P := fun t => t.workers.length = k)
        (fun s a s' h hp => (stepPool_preserves_len h).trans hp)
        acts (initPool jobs k) (by simp [initPool])
    calc inFlight (runPool (initPool jobs k) acts)
        ≤ (runPool (initPool jobs k) acts).workers.length :=
          List.countP_le_length _
      _ = k := hlen
  · intro parsed
    cases parsed with
    | none => norm_num [resolveConcurrency]
    | some c =>
      simp only [resolveConcurrency]
      split <;> omega

/-- C10: if the derived context reports `context.Canceled` (as it does
when the caller's context is cancelled mid-run) and no job executor has
returned an error, `executeSync` returns nil -- reporting success -- since
the return path discards `context.Canceled` and `errChan` is empty. -/
theorem external_cancel_returns_success (jobs : List MJob) (k : Nat)
    (acts : List PoolAction)
    (hc : (runPool (initPool jobs k) acts).ctxErr = some CtxErr.canceled)
    (hnf : (runPool (initPool jobs k) acts).failLog = []) :
    execResult (runPool (initPool jobs k) acts) = none := by
  have hInv : PoolInv (runPool (initPool jobs k) acts) := runPool_inv jobs k acts
  rw [execResult, hc, hInv.1, hnf]
  rfl

theorem external_cancel_returns_success_witness :
    execResult (runPool (initPool [⟨"a", none⟩] 1)
      [PoolAction.extCancel CtxErr.canceled, PoolAction.producerStop,
       PoolAction.wObserveCancel 0]) = none :=
  external_cancel_returns_success [⟨"a", none⟩] 1
    [PoolAction.extCancel CtxErr.canceled, PoolAction.producerStop,
     PoolAction.wObserveCancel 0] (by decide) (by decide)
